import Mathlib

/-!
Shallow embedding, in Lean 4, of three source files of the `vector`
observability pipeline:

* `src/lib/vector-core/src/event/array.rs` — the `EventContainer` trait,
  the `EventArray` batch type and its iterators;
* `src/lib/vector-core/src/schema/output.rs` — the `Output` schema wrapper
  (top-level `Kind` plus a purpose map);
* `src/lib/vrl/stdlib/src/parse_prometheus_text.rs` — the
  `parse_prometheus_text` VRL function.

Code of the repository that those files call but that is not part of the
excerpt (the `value::Kind` merge algebra, the `prometheus_parser` data
types, the lossy UTF-8 conversion) is modelled from the specification and
marked `Modelled from the spec:` in its doc comment.
-/

namespace Vector

/-! ## Event / EventArray (`src/lib/vector-core/src/event/array.rs`) -/

/-- Payload of a log event.  The excerpt never inspects a `LogEvent`'s
interior, so it is embedded as an opaque wrapper. -/
structure LogEvent where
  payload : Nat
  deriving DecidableEq, Repr

/-- Payload of a metric event, likewise opaque in the excerpt. -/
structure Metric where
  payload : Nat
  deriving DecidableEq, Repr

/-- `Event`: a sum type over exactly two variants, `Log` and `Metric`. -/
inductive Event where
  | log (l : LogEvent)
  | metric (m : Metric)
  deriving DecidableEq, Repr

/-- `SmallVec<[T; 1]>`: an ordered sequence whose first element can live in
a fixed one-slot inline buffer; sequences longer than one element spill to
heap-backed storage.  `inline` carries the proof that the inline buffer is
never over-filled. -/
inductive SmallVec (α : Type) where
  | inline (elems : List α) (h : elems.length ≤ 1)
  | heap (elems : List α)

/-- The elements held by a `SmallVec`, in order. -/
def SmallVec.toList {α : Type} : SmallVec α → List α
  | .inline elems _ => elems
  | .heap elems => elems

/-- Whether the elements are stored in the inline buffer (no heap
allocation). -/
def SmallVec.isInline {α : Type} : SmallVec α → Bool
  | .inline _ _ => true
  | .heap _ => false

/-- `smallvec_inline![x]`: a one-element `SmallVec` stored inline. -/
def smallvecInline {α : Type} (x : α) : SmallVec α :=
  .inline [x] (by simp)

/-- The type alias `LogArray = SmallVec<[LogEvent; 1]>`. -/
abbrev LogArray := SmallVec LogEvent

/-- The type alias `MetricArray = SmallVec<[Metric; 1]>`. -/
abbrev MetricArray := SmallVec Metric

/-- `EventArray`: an array of one of the `Event` variants exclusively. -/
inductive EventArray where
  | logs (a : LogArray)
  | metrics (a : MetricArray)

/-- `impl From<Event> for EventArray`: dispatch on the event's variant and
store it in the matching one-element inline batch. -/
def EventArray.fromEvent : Event → EventArray
  | .log l => .logs (smallvecInline l)
  | .metric m => .metrics (smallvecInline m)

/-- `impl EventContainer for Event`: `iter::once(self)`.  The lazy iterator
is embedded as the (finite) list of events it yields, in order. -/
def Event.intoEvents (e : Event) : List Event := [e]

/-- `impl EventContainer for LogEvent`: `iter::once(self.into())`. -/
def LogEvent.intoEvents (l : LogEvent) : List Event := [Event.log l]

/-- `impl EventContainer for Metric`: `iter::once(self.into())`. -/
def Metric.intoEvents (m : Metric) : List Event := [Event.metric m]

/-- `impl EventContainer for LogArray`:
`self.into_iter().map(Into::into)`. -/
def LogArray.intoEvents (a : LogArray) : List Event :=
  a.toList.map Event.log

/-- `impl EventContainer for MetricArray`:
`self.into_iter().map(Into::into)`. -/
def MetricArray.intoEvents (a : MetricArray) : List Event :=
  a.toList.map Event.metric

/-- `impl EventContainer for EventArray` together with the
`Iterator for EventArrayIntoIter` impl: the tagged iterator mirrors the
populated variant and re-wraps each element into `Event` as it is
yielded. -/
def EventArray.intoEvents : EventArray → List Event
  | .logs a => a.toList.map Event.log
  | .metrics a => a.toList.map Event.metric

/-- The number of elements stored in an `EventArray`. -/
def EventArray.length : EventArray → Nat
  | .logs a => a.toList.length
  | .metrics a => a.toList.length

/-! ## Kind / Output (`src/lib/vector-core/src/schema/output.rs`)

`value::Kind` itself lives in the repository's `lib/value` crate, outside
the excerpt, so it is modelled from the spec. -/

/-- Modelled from the spec: the set of scalar shapes a `Kind` may allow
(bytes/string, integer, float, boolean, timestamp, null, regex).  A union
of scalar possibilities is a subset of these, represented as one flag per
scalar so that union is component-wise `or`. -/
structure ScalarSet where
  bytes : Bool
  integer : Bool
  float : Bool
  boolean : Bool
  timestamp : Bool
  null : Bool
  regex : Bool
  deriving DecidableEq, Repr

/-- The empty set of scalar possibilities. -/
def ScalarSet.empty : ScalarSet :=
  ⟨false, false, false, false, false, false, false⟩

/-- Set union of scalar possibilities: component-wise `or`. -/
def ScalarSet.union (a b : ScalarSet) : ScalarSet :=
  ⟨a.bytes || b.bytes, a.integer || b.integer, a.float || b.float,
   a.boolean || b.boolean, a.timestamp || b.timestamp, a.null || b.null,
   a.regex || b.regex⟩

/-- Modelled from the spec: `value::Kind`, a recursive structural type
descriptor.  A value `mk anyk scalars arr obj` is the union of: everything
(when `anyk` is set), the scalars in `scalars`, arrays of the element kind
in `arr` (when present), and objects with the given sorted field map and
open flag (when present).  The "union capable of representing either" that
the spec requires for mismatched-shape merges is exactly a value with more
than one component populated; object field maps are kept sorted by field
name, mirroring the `BTreeMap` the repository uses. -/
inductive Kind where
  | mk (anyk : Bool) (scalars : ScalarSet) (arr : Option Kind)
      (obj : Option (List (String × Kind) × Bool)) : Kind

/-- The canonical "any" descriptor. -/
def Kind.anyTop : Kind := .mk true ScalarSet.empty Option.none Option.none

mutual

/-- Modelled from the spec: `Kind::merge` recursively unions two
descriptors: any ⊔ x = any; scalar sets union; arrays merge element-wise;
objects merge key-by-key with the open flags or-ed; a component present on
only one side is carried through. -/
def Kind.merge : Kind → Kind → Kind
  | .mk a1 s1 r1 o1, .mk a2 s2 r2 o2 =>
    if a1 || a2 then Kind.anyTop
    else .mk false (s1.union s2) (Kind.mergeArr r1 r2) (Kind.mergeObj o1 o2)
termination_by a b => sizeOf a + sizeOf b

/-- Merge of the optional array components. -/
def Kind.mergeArr : Option Kind → Option Kind → Option Kind
  | Option.none, y => y
  | some x, Option.none => some x
  | some x, some y => some (Kind.merge x y)
termination_by a b => sizeOf a + sizeOf b

/-- Merge of the optional object components: fields key-by-key, open flags
or-ed. -/
def Kind.mergeObj :
    Option (List (String × Kind) × Bool) → Option (List (String × Kind) × Bool) →
      Option (List (String × Kind) × Bool)
  | Option.none, y => y
  | some x, Option.none => some x
  | some (f1, b1), some (f2, b2) => some (Kind.mergeFields f1 f2, b1 || b2)
termination_by a b => sizeOf a + sizeOf b

/-- Key-by-key merge of two sorted field maps: shared keys are merged
recursively, keys unique to one side are carried through unchanged. -/
def Kind.mergeFields :
    List (String × Kind) → List (String × Kind) → List (String × Kind)
  | [], ys => ys
  | x :: xs, [] => x :: xs
  | (k1, v1) :: xs, (k2, v2) :: ys =>
    if k1 < k2 then (k1, v1) :: Kind.mergeFields xs ((k2, v2) :: ys)
    else if k2 < k1 then (k2, v2) :: Kind.mergeFields ((k1, v1) :: xs) ys
    else (k1, Kind.merge v1 v2) :: Kind.mergeFields xs ys
termination_by a b => sizeOf a + sizeOf b

end

/-- First-match lookup in an association list with string keys (the
observable behaviour of the map types the repository uses). -/
def plookup {β : Type} (k : String) : List (String × β) → Option β
  | [] => Option.none
  | (k', v) :: rest => if k = k' then some v else plookup k rest

/-- Insert into an association list, replacing the binding if the key is
already present and appending otherwise (the observable behaviour of
`HashMap::insert`). -/
def pinsert {β : Type} (m : List (String × β)) (k : String) (v : β) :
    List (String × β) :=
  match m with
  | [] => [(k, v)]
  | (k', v') :: rest => if k = k' then (k, v) :: rest else (k', v') :: pinsert rest k v

/-- `HashMap::extend`: insert every binding of `other`, overwriting
existing bindings with the incoming side's value. -/
def pextend {β : Type} (m other : List (String × β)) : List (String × β) :=
  other.foldl (fun acc p => pinsert acc p.1 p.2) m

/-- `Output`: the schema representation of the "output" produced by a
component — a top-level `Kind` plus a map from purpose tag to the field
path carrying it.  Purpose tags and path segments are modelled as strings;
the `HashMap` is modelled as an association list whose well-formedness
(no duplicate keys) is assumed where a theorem needs it. -/
structure Output where
  kind : Kind
  purpose : List (String × List String)

/-- Modelled from the spec: `Kind::nest_at_path` wraps a leaf kind into the
minimal nested object structure for the given field path. -/
def Kind.nestAtPath : List String → Kind → Kind
  | [], k => k
  | seg :: rest, k =>
    .mk false ScalarSet.empty Option.none (some ([(seg, Kind.nestAtPath rest k)], false))

/-- `Output::empty`: a fully open object with no field knowledge and an
empty purpose map. -/
def Output.empty : Output :=
  ⟨.mk false ScalarSet.empty Option.none (some ([], true)), []⟩

/-- `Output::define_field`: merge the nested kind into the top kind; when a
purpose is supplied, (re)bind that purpose tag to the path. -/
def Output.defineField (o : Output) (path : List String) (kind : Kind)
    (purpose : Option String) : Output :=
  { kind := o.kind.merge (Kind.nestAtPath path kind),
    purpose :=
      match purpose with
      | some p => pinsert o.purpose p path
      | Option.none => o.purpose }

/-- `Output::merge`: the top kinds are ⊔-merged; the purpose map of `other`
is `extend`-ed into `self`'s, so a tag present on both sides keeps
`other`'s path. -/
def Output.merge (o other : Output) : Output :=
  ⟨o.kind.merge other.kind, pextend o.purpose other.purpose⟩

/-! ## parse_prometheus_text (`src/lib/vrl/stdlib/src/parse_prometheus_text.rs`)

The `prometheus_parser` crate and the VRL `Value` machinery live in the
repository outside the excerpt; their data shapes are modelled from the
spec.  The decoder itself (`ParsePrometheusTextFn::resolve`) is embedded
from the source. -/

/-- An `f64` sample value, modelled by its bit pattern: the decoder only
moves scalar values, never computes with them, so no floating-point
semantics is needed. -/
structure FloatVal where
  bits : Nat
  deriving DecidableEq, Repr

/-- The VRL `Value` shapes the decoder produces.  Objects are `BTreeMap`s
keyed by strings, embedded as association lists sorted by key. -/
inductive Value where
  | str (s : String) : Value
  | num (x : FloatVal) : Value
  | int (i : Int) : Value
  | obj (fields : List (String × Value)) : Value
  | arr (elems : List Value) : Value

/-- `BTreeMap::insert` on a key-sorted association list: place the binding
at its sorted position, replacing an existing binding for the same key. -/
def binsert {β : Type} (k : String) (v : β) :
    List (String × β) → List (String × β)
  | [] => [(k, v)]
  | (k', v') :: rest =>
    if k < k' then (k, v) :: (k', v') :: rest
    else if k' < k then (k', v') :: binsert k v rest
    else (k, v) :: rest

/-- `collect::<BTreeMap<_, _>>()` over a sequence of bindings. -/
def bcollect {β : Type} (l : List (String × β)) : List (String × β) :=
  l.foldl (fun acc p => binsert p.1 p.2 acc) []

/-- Modelled from the spec: a `prometheus_parser::GroupKey` — the label set
(in the grammar's encounter order, unique keys guaranteed upstream) plus an
optional sample timestamp. -/
structure GroupKey where
  labels : List (String × String)
  timestamp : Option Int
  deriving DecidableEq, Repr

/-- Modelled from the spec: the single-scalar sample carried by counter,
gauge and untyped groups. -/
structure SimpleSample where
  value : FloatVal
  deriving DecidableEq, Repr

/-- Modelled from the spec: one (quantile, value) pair of a summary
sample. -/
structure QuantileVal where
  quantile : FloatVal
  value : FloatVal
  deriving DecidableEq, Repr

/-- Modelled from the spec: the sample carried by summary groups — a
sequence of (quantile, value) pairs plus `sum` and `count`. -/
structure SummarySample where
  quantiles : List QuantileVal
  sum : FloatVal
  count : Nat
  deriving DecidableEq, Repr

/-- Modelled from the spec: one (bucket-boundary, cumulative-count) pair of
a histogram sample. -/
structure BucketVal where
  bucket : FloatVal
  count : Nat
  deriving DecidableEq, Repr

/-- Modelled from the spec: the sample carried by histogram groups — a
sequence of buckets plus `sum` and `count`. -/
structure HistogramSample where
  buckets : List BucketVal
  sum : FloatVal
  count : Nat
  deriving DecidableEq, Repr

/-- Modelled from the spec: `prometheus_parser::GroupKind` — the kind tag
of a metric group together with its map from group-key to sample. -/
inductive GroupKind where
  | counter (m : List (GroupKey × SimpleSample)) : GroupKind
  | gauge (m : List (GroupKey × SimpleSample)) : GroupKind
  | untyped (m : List (GroupKey × SimpleSample)) : GroupKind
  | summary (m : List (GroupKey × SummarySample)) : GroupKind
  | histogram (m : List (GroupKey × HistogramSample)) : GroupKind

/-- `GroupKind::type_to_str`: the lowercase kind name. -/
def GroupKind.typeToStr : GroupKind → String
  | .counter _ => "counter"
  | .gauge _ => "gauge"
  | .untyped _ => "untyped"
  | .summary _ => "summary"
  | .histogram _ => "histogram"

/-- Modelled from the spec: a parsed metric group — a name, a kind tag and
the per-group-key samples. -/
structure MetricGroup where
  name : String
  metrics : GroupKind

/-- The label rendering the decoder performs:
`group_key.labels.into_iter().map(|(key, val)| (key, Value::from(val))).collect::<BTreeMap<_, _>>()`. -/
def renderLabels (labels : List (String × String)) : List (String × Value) :=
  bcollect (labels.map (fun p => (p.1, Value.str p.2)))

/-- Append the optional `timestamp` field:
`match group_key.timestamp { Some(v) => entry.insert(...), None => ... }`. -/
def withTimestamp (entry : List (String × Value)) (ts : Option Int) :
    List (String × Value) :=
  match ts with
  | some v => binsert "timestamp" (Value.int v) entry
  | Option.none => entry

/-- The record built for one group-key of a counter/gauge/untyped group:
`map!["type": ..., "name": ..., "value": ..., "labels": ...]` plus the
optional timestamp. -/
def simpleEntry (metricType name : String) (gk : GroupKey) (s : SimpleSample) :
    List (String × Value) :=
  withTimestamp
    (binsert "labels" (Value.obj (renderLabels gk.labels))
      (binsert "value" (Value.num s.value)
        (binsert "name" (Value.str name)
          (binsert "type" (Value.str metricType) []))))
    gk.timestamp

/-- The record built for one group-key of a summary group. -/
def summaryEntry (metricType name : String) (gk : GroupKey) (s : SummarySample) :
    List (String × Value) :=
  withTimestamp
    (binsert "labels" (Value.obj (renderLabels gk.labels))
      (binsert "count" (Value.int (Int.ofNat s.count))
        (binsert "sum" (Value.num s.sum)
          (binsert "quantiles"
            (Value.arr (s.quantiles.map (fun q =>
              Value.obj (binsert "value" (Value.num q.value)
                (binsert "quantile" (Value.num q.quantile) [])))))
            (binsert "name" (Value.str name)
              (binsert "type" (Value.str metricType) []))))))
    gk.timestamp

/-- The record built for one group-key of a histogram group. -/
def histogramEntry (metricType name : String) (gk : GroupKey)
    (s : HistogramSample) : List (String × Value) :=
  withTimestamp
    (binsert "labels" (Value.obj (renderLabels gk.labels))
      (binsert "count" (Value.int (Int.ofNat s.count))
        (binsert "sum" (Value.num s.sum)
          (binsert "buckets"
            (Value.arr (s.buckets.map (fun b =>
              Value.obj (binsert "count" (Value.int (Int.ofNat b.count))
                (binsert "bucket" (Value.num b.bucket) [])))))
            (binsert "name" (Value.str name)
              (binsert "type" (Value.str metricType) []))))))
    gk.timestamp

/-- The per-group body of the decoder's `map` closure: one record per
group-key, dispatched on the group's kind tag. -/
def groupRecords (g : MetricGroup) : List (List (String × Value)) :=
  let metricType := g.metrics.typeToStr
  match g.metrics with
  | .counter m | .gauge m | .untyped m =>
    m.map (fun p => simpleEntry metricType g.name p.1 p.2)
  | .summary m => m.map (fun p => summaryEntry metricType g.name p.1 p.2)
  | .histogram m => m.map (fun p => histogramEntry metricType g.name p.1 p.2)

/-- The success branch of `resolve`: map every group to its records,
flatten preserving order, and wrap as a VRL array of objects. -/
def resolveParsed (groups : List MetricGroup) : Value :=
  .arr ((groups.map groupRecords).flatten.map Value.obj)

/-- The diagnostic header `resolve` prepends to the parser's message. -/
def parseFailHeader : String := "failed parsing Prometheus text format: "

/-- `ParsePrometheusTextFn::resolve`, after the argument has been resolved
to text: dispatch on the external parser's result.  The parser is a black
box, so `resolve` is embedded as a function of its output. -/
def resolve (p : Except String (List MetricGroup)) : Except String Value :=
  match p with
  | .ok parsed => .ok (resolveParsed parsed)
  | .error err => .error (parseFailHeader ++ err)

/-- Whether a byte is a UTF-8 continuation byte (`0x80..=0xBF`). -/
def isContByte (b : Nat) : Bool := decide (0x80 ≤ b ∧ b ≤ 0xBF)

/-- Range check for the first continuation byte of a three-byte sequence
(tighter for lead bytes `0xE0` and `0xED`, excluding overlong encodings and
surrogates). -/
def cont3First (b b1 : Nat) : Bool :=
  if b == 0xE0 then decide (0xA0 ≤ b1 ∧ b1 ≤ 0xBF)
  else if b == 0xED then decide (0x80 ≤ b1 ∧ b1 ≤ 0x9F)
  else isContByte b1

/-- Range check for the first continuation byte of a four-byte sequence
(tighter for lead bytes `0xF0` and `0xF4`, excluding overlong encodings and
code points beyond `U+10FFFF`). -/
def cont4First (b b1 : Nat) : Bool :=
  if b == 0xF0 then decide (0x90 ≤ b1 ∧ b1 ≤ 0xBF)
  else if b == 0xF4 then decide (0x80 ≤ b1 ∧ b1 ≤ 0x8F)
  else isContByte b1

/-- Modelled from the spec: the lossy UTF-8 conversion behind
`try_bytes_utf8_lossy` (VRL core, outside the excerpt) — decode each valid
UTF-8 sequence to its character and replace invalid bytes with U+FFFD.  It
is a total function: no input byte sequence is rejected. -/
def utf8Lossy : List Nat → List Char
  | [] => []
  | b :: rest =>
    if b < 0x80 then Char.ofNat b :: utf8Lossy rest
    else if 0xC2 ≤ b && b ≤ 0xDF then
      match rest with
      | b1 :: rest1 =>
        if isContByte b1 then
          Char.ofNat ((b - 0xC0) * 0x40 + (b1 - 0x80)) :: utf8Lossy rest1
        else Char.ofNat 0xFFFD :: utf8Lossy (b1 :: rest1)
      | [] => [Char.ofNat 0xFFFD]
    else if 0xE0 ≤ b && b ≤ 0xEF then
      match rest with
      | b1 :: b2 :: rest2 =>
        if cont3First b b1 && isContByte b2 then
          Char.ofNat ((b - 0xE0) * 0x1000 + (b1 - 0x80) * 0x40 + (b2 - 0x80)) ::
            utf8Lossy rest2
        else Char.ofNat 0xFFFD :: utf8Lossy (b1 :: b2 :: rest2)
      | [b1] => Char.ofNat 0xFFFD :: utf8Lossy [b1]
      | [] => [Char.ofNat 0xFFFD]
    else if 0xF0 ≤ b && b ≤ 0xF4 then
      match rest with
      | b1 :: b2 :: b3 :: rest3 =>
        if cont4First b b1 && isContByte b2 && isContByte b3 then
          Char.ofNat
            ((b - 0xF0) * 0x40000 + (b1 - 0x80) * 0x1000 + (b2 - 0x80) * 0x40 +
              (b3 - 0x80)) :: utf8Lossy rest3
        else Char.ofNat 0xFFFD :: utf8Lossy (b1 :: b2 :: b3 :: rest3)
      | [b1, b2] => Char.ofNat 0xFFFD :: utf8Lossy [b1, b2]
      | [b1] => Char.ofNat 0xFFFD :: utf8Lossy [b1]
      | [] => [Char.ofNat 0xFFFD]
    else Char.ofNat 0xFFFD :: utf8Lossy rest
termination_by l => l.length
decreasing_by all_goals (simp_wf <;> omega)

/-- The whole decode pipeline of `ParsePrometheusTextFn::resolve` on a byte
sequence: lossy UTF-8 conversion, the external grammar parser (a black-box
parameter), then `resolve`'s dispatch on the parser's result. -/
def decodeBytes (parse : String → Except String (List MetricGroup))
    (bytes : List Nat) : Except String Value :=
  resolve (parse (String.mk (utf8Lossy bytes)))

/-! ## The decoder's static type declaration (`type_def` / `inner_type_def`) -/

/-- The VRL scalar kinds the type declaration mentions. -/
inductive VrlKind where
  | bytes
  | integer
  | float
  | boolean
  | timestamp
  | null
  | regex
  deriving DecidableEq, Repr

/-- A shallow model of VRL's `TypeDef`: a fallibility flag plus a shape.
An object's declared fields are the `BTreeMap` passed to
`TypeDef::object`; per the spec's reading, a declared field constrains the
field's kind when present and an empty field map leaves the object open
with unconstrained values. -/
inductive TypeDef where
  | scalar (fallible : Bool) (k : VrlKind) : TypeDef
  | arrayOf (fallible : Bool) (elems : List TypeDef) : TypeDef
  | objectOf (fallible : Bool) (fields : List (String × TypeDef)) : TypeDef

/-- `inner_type_def()`:
`map! { "name": Kind::Bytes, "timestamp": Kind::Timestamp, "labels": TypeDef::new().object::<&str, Kind>(map! {}) }`. -/
def innerTypeDef : List (String × TypeDef) :=
  bcollect
    [("name", TypeDef.scalar false VrlKind.bytes),
     ("timestamp", TypeDef.scalar false VrlKind.timestamp),
     ("labels", TypeDef.objectOf false [])]

/-- `ParsePrometheusTextFn::type_def`:
`TypeDef::new().fallible().array::<TypeDef>(vec![TypeDef::new().object::<&str, TypeDef>(inner_type_def())])`. -/
def parsePrometheusTextTypeDef : TypeDef :=
  TypeDef.arrayOf true [TypeDef.objectOf false innerTypeDef]

/-- The shape the spec claims for the records of a counter, gauge or
untyped group: one record per group-key; the record's fields are exactly
`type`, `name`, `value`, `labels` plus `timestamp` exactly when the
group-key carries one (the field is absent, not null, otherwise); `type`
is the lowercase kind name, `value` the sample's scalar, `labels` the
rendered label set. -/
def simpleRecordClaim (records : List (List (String × Value)))
    (typeName name : String) (mm : List (GroupKey × SimpleSample)) : Prop :=
  records.length = mm.length ∧
  ∀ i (h : i < mm.length),
    ∃ r, records[i]? = some r ∧
      r.map Prod.fst =
        (if (mm.get ⟨i, h⟩).1.timestamp.isSome then
          ["labels", "name", "timestamp", "type", "value"]
        else ["labels", "name", "type", "value"]) ∧
      plookup "type" r = some (Value.str typeName) ∧
      plookup "name" r = some (Value.str name) ∧
      plookup "value" r = some (Value.num (mm.get ⟨i, h⟩).2.value) ∧
      plookup "labels" r = some (Value.obj (renderLabels (mm.get ⟨i, h⟩).1.labels)) ∧
      plookup "timestamp" r = (mm.get ⟨i, h⟩).1.timestamp.map Value.int

/-- "No field-type collisions" between two kinds: no object field name
declared on both sides with different kinds. -/
def NoCollisions (a b : Kind) : Prop :=
  match a, b with
  | .mk _ _ _ (some (f1, _)), .mk _ _ _ (some (f2, _)) =>
    ∀ k v1 v2, plookup k f1 = some v1 → plookup k f2 = some v2 → v1 = v2
  | _, _ => True

/-- Strictly-ascending key order for an association list (the `BTreeMap`
representation invariant). -/
def KeySorted {β : Type} (m : List (String × β)) : Prop :=
  List.Pairwise (fun p q : String × β => p.1 < q.1) m

/-! ## Claims about Event / EventArray -/

/-- C3: `EventArray::from(e)` produces a one-element batch in the variant
matching `e`'s variant — `Event::Log` yields `EventArray::Logs` with
exactly one element and `Event::Metric` yields `EventArray::Metrics` with
exactly one element (the equations on the constructor make the other
variant absent) — and the element is stored inline, with no heap
allocation. -/
theorem eventarray_from_event_single_inline (l : LogEvent) (m : Metric) :
    (∃ a : LogArray, EventArray.fromEvent (Event.log l) = EventArray.logs a ∧
      a.toList = [l] ∧ a.isInline = true ∧
      (EventArray.fromEvent (Event.log l)).length = 1) ∧
    (∃ a : MetricArray, EventArray.fromEvent (Event.metric m) = EventArray.metrics a ∧
      a.toList = [m] ∧ a.isInline = true ∧
      (EventArray.fromEvent (Event.metric m)).length = 1) := by
  exact ⟨⟨smallvecInline l, rfl, rfl, rfl, rfl⟩,
    ⟨smallvecInline m, rfl, rfl, rfl, rfl⟩⟩

/-- C9: for every `EventContainer` (a single `Event`, a single `LogEvent`,
a single `Metric`, a `LogArray`, a `MetricArray`, an `EventArray`),
`into_events` consumes the container and yields each contained event
exactly once, converted into the generic `Event` sum type, in source
order: the indexed view of the yielded sequence agrees with the converted
indexed view of the contents at every position.  The degenerate
single-element containers yield exactly one `Event`, and every operation
is a total function — there is no fallible path. -/
theorem into_events_yields_each_once :
    (∀ e : Event, e.intoEvents = [e]) ∧
    (∀ l : LogEvent, l.intoEvents = [Event.log l]) ∧
    (∀ m : Metric, m.intoEvents = [Event.metric m]) ∧
    (∀ (la : LogArray) (i : Nat),
      (LogArray.intoEvents la)[i]? = la.toList[i]?.map Event.log) ∧
    (∀ (ma : MetricArray) (i : Nat),
      (MetricArray.intoEvents ma)[i]? = ma.toList[i]?.map Event.metric) ∧
    (∀ ea : EventArray, ea.intoEvents.length = ea.length) ∧
    (∀ (la : LogArray) (i : Nat),
      (EventArray.logs la).intoEvents[i]? = la.toList[i]?.map Event.log) ∧
    (∀ (ma : MetricArray) (i : Nat),
      (EventArray.metrics ma).intoEvents[i]? = ma.toList[i]?.map Event.metric) := by
  refine ⟨fun e => rfl, fun l => rfl, fun m => rfl, ?_, ?_, ?_, ?_, ?_⟩
  · intro la i; simp [LogArray.intoEvents]
  · intro ma i; simp [MetricArray.intoEvents]
  · intro ea; cases ea <;> simp [EventArray.intoEvents, EventArray.length]
  · intro la i; simp [EventArray.intoEvents]
  · intro ma i; simp [EventArray.intoEvents]

/-- C10: iterating `into_events` of an `EventArray` preserves homogeneity:
every event yielded from an `EventArray::Logs` value is an `Event::Log`,
and every event yielded from an `EventArray::Metrics` value is an
`Event::Metric`; the other variant is never yielded. -/
theorem eventarray_iter_homogeneous (la : LogArray) (ma : MetricArray) :
    (∀ ev ∈ (EventArray.logs la).intoEvents, ∃ l, ev = Event.log l) ∧
    (∀ ev ∈ (EventArray.metrics ma).intoEvents, ∃ m, ev = Event.metric m) := by
  constructor
  · intro ev hev
    simp only [EventArray.intoEvents, List.mem_map] at hev
    obtain ⟨l, _, rfl⟩ := hev
    exact ⟨l, rfl⟩
  · intro ev hev
    simp only [EventArray.intoEvents, List.mem_map] at hev
    obtain ⟨m, _, rfl⟩ := hev
    exact ⟨m, rfl⟩

/-- Witness for C10 at a concrete one-element log batch and metric
batch. -/
theorem eventarray_iter_homogeneous_witness :
    ∃ l, Event.log ⟨0⟩ = Event.log l :=
  (eventarray_iter_homogeneous (smallvecInline ⟨0⟩) (smallvecInline ⟨1⟩)).1
    (Event.log ⟨0⟩) (by simp [EventArray.intoEvents, smallvecInline, SmallVec.toList])

/-! ## Claims about the decoder's error handling -/

/-- C1: whenever the external grammar parser reports an error, `resolve`
returns a failure carrying the parser's diagnostic message (prefixed with
the decoder's header) and returns no records at all — never a partial
record list alongside or instead of the failure. -/
theorem resolve_error_atomic (p : Except String (List MetricGroup))
    (e : String) (h : p = Except.error e) :
    resolve p = Except.error (parseFailHeader ++ e) ∧
      ∀ v : Value, resolve p ≠ Except.ok v := by
  subst h
  exact ⟨rfl, fun v hv => by simp [resolve] at hv⟩

/-- Witness for C1 at a concrete parser diagnostic. -/
theorem resolve_error_atomic_witness :
    resolve (Except.error "bad line") =
        Except.error (parseFailHeader ++ "bad line") ∧
      ∀ v : Value, resolve (Except.error "bad line") ≠ Except.ok v :=
  resolve_error_atomic (Except.error "bad line") "bad line" rfl

/-- C8: the lossy UTF-8 step of decoding never produces a hard failure on
its own — `utf8Lossy` is a total function, so every byte sequence reaches
the grammar parser — and a byte sequence that is not valid UTF-8 can only
fail through the same grammar-parse-error path as malformed valid text:
the decode fails exactly when the parser rejects the lossily decoded text,
with the parser's diagnostic, and there is no separate invalid-UTF-8
error. -/
theorem decode_error_only_via_grammar
    (parse : String → Except String (List MetricGroup)) (bytes : List Nat) :
    (∀ e : String, decodeBytes parse bytes = Except.error e ↔
      ∃ e', parse (String.mk (utf8Lossy bytes)) = Except.error e' ∧
        e = parseFailHeader ++ e') ∧
    (∀ parsed, parse (String.mk (utf8Lossy bytes)) = Except.ok parsed →
      decodeBytes parse bytes = Except.ok (resolveParsed parsed)) := by
  constructor
  · intro e
    unfold decodeBytes resolve
    cases hp : parse (String.mk (utf8Lossy bytes)) with
    | ok parsed => simp
    | error e' =>
      simp only [Except.error.injEq]
      constructor
      · intro h; exact ⟨e', rfl, h.symm⟩
      · rintro ⟨e'', he'', rfl⟩
        cases he''; rfl
  · intro parsed hp
    unfold decodeBytes resolve
    rw [hp]

/-- Witness for C8: invalid UTF-8 input bytes with a parser that rejects
the replaced text fail with the grammar diagnostic. -/
theorem decode_error_only_via_grammar_witness :
    decodeBytes (fun _ => Except.error "bad") [0xFF] =
      Except.error (parseFailHeader ++ "bad") :=
  ((decode_error_only_via_grammar (fun _ => Except.error "bad") [0xFF]).1
    (parseFailHeader ++ "bad")).mpr ⟨"bad", rfl, rfl⟩

/-! ## Helper lemmas on the association-list map operations -/

theorem mem_keys_of_plookup {β : Type} {m : List (String × β)} {k : String}
    {v : β} (h : plookup k m = some v) : k ∈ m.map Prod.fst := by
  induction m with
  | nil => simp [plookup] at h
  | cons p rest ih =>
    obtain ⟨k', v'⟩ := p
    by_cases hk : k = k'
    · simp [hk]
    · simp only [plookup, if_neg hk] at h
      simp [ih h]

theorem plookup_eq_none_of {β : Type} (m : List (String × β)) (k : String)
    (h : ∀ p ∈ m, k ≠ p.1) : plookup k m = Option.none := by
  induction m with
  | nil => rfl
  | cons p rest ih =>
    obtain ⟨k', v'⟩ := p
    have hk : k ≠ k' := h (k', v') (by simp)
    simp only [plookup, if_neg hk]
    exact ih fun q hq => h q (by simp [hq])

theorem mem_binsert {β : Type} {m : List (String × β)} {k : String} {v : β}
    {p : String × β} (h : p ∈ binsert k v m) : p = (k, v) ∨ p ∈ m := by
  induction m with
  | nil => simpa [binsert] using h
  | cons q rest ih =>
    obtain ⟨k', v'⟩ := q
    simp only [binsert] at h
    split at h
    · simp only [List.mem_cons] at h
      rcases h with h | h | h <;> simp [h]
    · split at h
      · simp only [List.mem_cons] at h
        rcases h with h | h
        · simp [h]
        · rcases ih h with h | h <;> simp [h]
      · simp only [List.mem_cons] at h
        rcases h with h | h <;> simp [h]

theorem keySorted_binsert {β : Type} {m : List (String × β)} (k : String)
    (v : β) (h : KeySorted m) : KeySorted (binsert k v m) := by
  induction m with
  | nil => simp [binsert, KeySorted]
  | cons q rest ih =>
    obtain ⟨k', v'⟩ := q
    rw [KeySorted, List.pairwise_cons] at h
    obtain ⟨hlt, hrest⟩ := h
    simp only [binsert]
    split
    · rename_i hkk
      rw [KeySorted, List.pairwise_cons]
      refine ⟨?_, List.pairwise_cons.mpr ⟨hlt, hrest⟩⟩
      intro q hq
      simp only [List.mem_cons] at hq
      rcases hq with hq | hq
      · simp [hq, hkk]
      · exact lt_trans hkk (hlt q hq)
    · split
      · rename_i hk'k
        rw [KeySorted, List.pairwise_cons]
        refine ⟨?_, ih hrest⟩
        intro q hq
        rcases mem_binsert hq with hq | hq
        · simp [hq, hk'k]
        · exact hlt q hq
      · rename_i h1 h2
        have hkk : k = k' := le_antisymm (not_lt.mp h2) (not_lt.mp h1)
        rw [KeySorted, List.pairwise_cons]
        exact ⟨fun q hq => hkk ▸ hlt q hq, hrest⟩

theorem plookup_binsert {β : Type} (m : List (String × β)) (k₂ k : String)
    (v : β) :
    plookup k₂ (binsert k v m) = if k₂ = k then some v else plookup k₂ m := by
  induction m with
  | nil => simp [binsert, plookup]
  | cons q rest ih =>
    obtain ⟨k', v'⟩ := q
    simp only [binsert]
    split
    · rename_i hkk
      by_cases h2 : k₂ = k
      · simp [plookup, h2]
      · simp [plookup, h2]
    · split
      · rename_i h1 hk'k
        by_cases h2 : k₂ = k'
        · have hne : k₂ ≠ k := fun hc => by
            subst hc; subst h2; exact absurd hk'k (lt_irrefl _)
          simp [plookup, h2, hne, ne_of_lt hk'k]
        · simp [plookup, h2, ih]
      · rename_i h1 h2
        have hkk : k = k' := le_antisymm (not_lt.mp h2) (not_lt.mp h1)
        subst hkk
        by_cases h3 : k₂ = k
        · simp [plookup, h3]
        · simp [plookup, h3]

theorem keySorted_foldl_binsert {β : Type} (l : List (String × β)) :
    ∀ acc : List (String × β), KeySorted acc →
      KeySorted (l.foldl (fun m p => binsert p.1 p.2 m) acc) := by
  induction l with
  | nil => intro acc hacc; exact hacc
  | cons p rest ih =>
    intro acc hacc
    exact ih (binsert p.1 p.2 acc) (keySorted_binsert p.1 p.2 hacc)

theorem keySorted_bcollect {β : Type} (l : List (String × β)) :
    KeySorted (bcollect l) :=
  keySorted_foldl_binsert l [] (by simp [KeySorted])

theorem plookup_foldl_binsert {β : Type} :
    ∀ l : List (String × β), (l.map Prod.fst).Nodup →
      ∀ (acc : List (String × β)) (k : String),
        plookup k (l.foldl (fun m p => binsert p.1 p.2 m) acc) =
          match plookup k l with
          | some v => some v
          | Option.none => plookup k acc := by
  intro l
  induction l with
  | nil => intro _ acc k; simp [plookup]
  | cons p rest ih =>
    intro hnd acc k
    obtain ⟨k₁, v₁⟩ := p
    simp only [List.map_cons, List.nodup_cons] at hnd
    obtain ⟨hk₁, hrest⟩ := hnd
    simp only [List.foldl_cons]
    rw [ih hrest]
    by_cases hk : k = k₁
    · subst hk
      have hnone : plookup k rest = Option.none := by
        cases hv : plookup k rest with
        | none => rfl
        | some v => exact absurd (mem_keys_of_plookup hv) hk₁
      simp [hnone, plookup, plookup_binsert]
    · simp only [plookup, if_neg hk]
      cases hv : plookup k rest with
      | none => simp [plookup_binsert, hk]
      | some v => simp

theorem plookup_bcollect {β : Type} (l : List (String × β))
    (hnd : (l.map Prod.fst).Nodup) (k : String) :
    plookup k (bcollect l) = plookup k l := by
  rw [bcollect, plookup_foldl_binsert l hnd]
  cases plookup k l <;> simp [plookup]

theorem plookup_map_value {β γ : Type} (l : List (String × β)) (f : β → γ)
    (k : String) :
    plookup k (l.map (fun p => (p.1, f p.2))) = (plookup k l).map f := by
  induction l with
  | nil => simp [plookup]
  | cons p rest ih =>
    obtain ⟨k', v'⟩ := p
    by_cases hk : k = k'
    · simp [plookup, hk]
    · simp [plookup, hk, ih]

theorem mem_foldl_binsert {β : Type} {P : String × β → Prop} :
    ∀ (l acc : List (String × β)), (∀ p ∈ acc, P p) → (∀ p ∈ l, P p) →
      ∀ p ∈ l.foldl (fun m q => binsert q.1 q.2 m) acc, P p := by
  intro l
  induction l with
  | nil => intro acc hacc _ p hp; exact hacc p hp
  | cons q rest ih =>
    intro acc hacc hl p hp
    refine ih (binsert q.1 q.2 acc) ?_ (fun r hr => hl r (by simp [hr])) p hp
    intro r hr
    rcases mem_binsert hr with hr | hr
    · subst hr
      exact hl (q.1, q.2) (by simp)
    · exact hacc r hr

/-! ## Claims about the decoder's records -/

theorem simpleEntry_eq_none (t n : String) (labels : List (String × String))
    (s : SimpleSample) :
    simpleEntry t n ⟨labels, Option.none⟩ s =
      [("labels", Value.obj (renderLabels labels)), ("name", Value.str n),
       ("type", Value.str t), ("value", Value.num s.value)] := by
  simp +decide [simpleEntry, withTimestamp, binsert]

theorem simpleEntry_eq_some (t n : String) (labels : List (String × String))
    (ts : Int) (s : SimpleSample) :
    simpleEntry t n ⟨labels, some ts⟩ s =
      [("labels", Value.obj (renderLabels labels)), ("name", Value.str n),
       ("timestamp", Value.int ts), ("type", Value.str t),
       ("value", Value.num s.value)] := by
  simp +decide [simpleEntry, withTimestamp, binsert]

theorem simpleEntry_props (t n : String) (gk : GroupKey) (s : SimpleSample) :
    (simpleEntry t n gk s).map Prod.fst =
        (if gk.timestamp.isSome then
          ["labels", "name", "timestamp", "type", "value"]
        else ["labels", "name", "type", "value"]) ∧
      plookup "type" (simpleEntry t n gk s) = some (Value.str t) ∧
      plookup "name" (simpleEntry t n gk s) = some (Value.str n) ∧
      plookup "value" (simpleEntry t n gk s) = some (Value.num s.value) ∧
      plookup "labels" (simpleEntry t n gk s) =
        some (Value.obj (renderLabels gk.labels)) ∧
      plookup "timestamp" (simpleEntry t n gk s) =
        gk.timestamp.map Value.int := by
  obtain ⟨labels, ts⟩ := gk
  cases ts <;>
    simp +decide [simpleEntry_eq_none, simpleEntry_eq_some, plookup]

theorem simpleRecordClaim_map (t n : String)
    (mm : List (GroupKey × SimpleSample)) :
    simpleRecordClaim (mm.map (fun p => simpleEntry t n p.1 p.2)) t n mm := by
  refine ⟨by simp, ?_⟩
  intro i h
  refine ⟨simpleEntry t n (mm.get ⟨i, h⟩).1 (mm.get ⟨i, h⟩).2, ?_,
    simpleEntry_props t n (mm.get ⟨i, h⟩).1 (mm.get ⟨i, h⟩).2⟩
  simp [List.getElem?_eq_getElem, h, List.get_eq_getElem]

/-- C2: for every parsed metric group whose kind tag is Counter, Gauge or
Untyped and every group-key in the group, the decoder emits exactly one
record whose fields are exactly `type`, `name`, `value`, `labels`, plus
`timestamp` present if and only if the group-key carries a timestamp
(absent, not null, otherwise); `type` is the lowercase kind name and
`value` the sample's scalar. -/
theorem simple_groups_record_shape (name : String)
    (mm : List (GroupKey × SimpleSample)) :
    simpleRecordClaim (groupRecords ⟨name, GroupKind.counter mm⟩)
        "counter" name mm ∧
      simpleRecordClaim (groupRecords ⟨name, GroupKind.gauge mm⟩)
        "gauge" name mm ∧
      simpleRecordClaim (groupRecords ⟨name, GroupKind.untyped mm⟩)
        "untyped" name mm :=
  ⟨simpleRecordClaim_map "counter" name mm,
   simpleRecordClaim_map "gauge" name mm,
   simpleRecordClaim_map "untyped" name mm⟩

/-- Witness for C2 at a concrete one-sample counter group with a label and
a timestamp. -/
theorem simple_groups_record_shape_witness :
    simpleRecordClaim
      (groupRecords ⟨"m", GroupKind.counter [(⟨[("h", "x")], some 5⟩, ⟨⟨7⟩⟩)]⟩)
      "counter" "m" [(⟨[("h", "x")], some 5⟩, ⟨⟨7⟩⟩)] :=
  (simple_groups_record_shape "m" [(⟨[("h", "x")], some 5⟩, ⟨⟨7⟩⟩)]).1

/-- C7: the decoder's declared static type, independent of any input, is a
fallible array of objects whose declared fields are exactly `name`
(string-like), `timestamp` (timestamp-like; under the spec's reading of
the declaration, declared fields may be absent, so it is optional) and
`labels` (an empty declared field map, i.e. an open object of
unconstrained value kind), with nothing distinguishing the per-kind field
sets: no `value`, `quantiles`, `buckets`, `sum` or `count` fields are
declared. -/
theorem decoder_static_type_decl :
    ∃ fields, parsePrometheusTextTypeDef =
        TypeDef.arrayOf true [TypeDef.objectOf false fields] ∧
      fields.map Prod.fst = ["labels", "name", "timestamp"] ∧
      plookup "name" fields = some (TypeDef.scalar false VrlKind.bytes) ∧
      plookup "timestamp" fields =
        some (TypeDef.scalar false VrlKind.timestamp) ∧
      plookup "labels" fields = some (TypeDef.objectOf false []) ∧
      plookup "value" fields = Option.none ∧
      plookup "quantiles" fields = Option.none ∧
      plookup "buckets" fields = Option.none ∧
      plookup "sum" fields = Option.none ∧
      plookup "count" fields = Option.none := by
  refine ⟨innerTypeDef, rfl, ?_, ?_, ?_, ?_, ?_, ?_, ?_, ?_, ?_⟩ <;>
    simp +decide [innerTypeDef, bcollect, binsert, plookup]

/-- C6 counterexample: labels are *not* rendered in the grammar's
encounter order.  For the encounter order `b`, `a` the decoded record's
`labels` object carries the keys re-sorted to `a`, `b`, because the
decoder collects them into a `BTreeMap`. -/
theorem labels_not_encounter_order :
    ∃ r, groupRecords
          ⟨"m", GroupKind.untyped [(⟨[("b", "1"), ("a", "2")], Option.none⟩, ⟨⟨0⟩⟩)]⟩ =
        [r] ∧
      plookup "labels" r =
        some (Value.obj [("a", Value.str "2"), ("b", Value.str "1")]) ∧
      ([("a", Value.str "2"), ("b", Value.str "1")].map Prod.fst ≠
        ([("b", "1"), ("a", "2")] : List (String × String)).map Prod.fst) := by
  refine ⟨simpleEntry "untyped" "m" ⟨[("b", "1"), ("a", "2")], Option.none⟩ ⟨⟨0⟩⟩,
    rfl, ?_, by decide⟩
  simp +decide [simpleEntry_eq_none, plookup, renderLabels, bcollect, binsert]

/-- C6 (amended): in every decoded record, `labels` is the group-key's
label set rendered as a string-to-string associative structure with unique
keys; its entries appear sorted by label name (the `BTreeMap` order), not
in the grammar's encounter order. -/
theorem labels_sorted_by_key (labels : List (String × String))
    (hnd : (labels.map Prod.fst).Nodup) :
    KeySorted (renderLabels labels) ∧
      (∀ k, plookup k (renderLabels labels) =
        (plookup k labels).map Value.str) ∧
      (∀ p ∈ renderLabels labels, ∃ v, p.2 = Value.str v) := by
  have hkeys : ((labels.map fun p => (p.1, Value.str p.2)).map Prod.fst).Nodup := by
    simpa using hnd
  refine ⟨keySorted_bcollect _, ?_, ?_⟩
  · intro k
    rw [renderLabels, plookup_bcollect _ hkeys, plookup_map_value]
  · intro p hp
    refine mem_foldl_binsert (P := fun p => ∃ v, p.2 = Value.str v)
      _ [] (by simp) ?_ p hp
    intro q hq
    simp only [List.mem_map] at hq
    obtain ⟨q', _, rfl⟩ := hq
    exact ⟨q'.2, rfl⟩

/-- Witness for the amended C6 at a concrete unsorted label set. -/
theorem labels_sorted_by_key_witness :
    KeySorted (renderLabels [("b", "1"), ("a", "2")]) ∧
      (∀ k, plookup k (renderLabels [("b", "1"), ("a", "2")]) =
        (plookup k [("b", "1"), ("a", "2")]).map Value.str) ∧
      (∀ p ∈ renderLabels [("b", "1"), ("a", "2")], ∃ v, p.2 = Value.str v) :=
  labels_sorted_by_key [("b", "1"), ("a", "2")] (by decide)

/-! ## Claims about Output::merge -/

theorem plookup_pinsert {β : Type} (m : List (String × β)) (k₂ k : String)
    (v : β) :
    plookup k₂ (pinsert m k v) = if k₂ = k then some v else plookup k₂ m := by
  induction m with
  | nil => simp [pinsert, plookup]
  | cons q rest ih =>
    obtain ⟨k', v'⟩ := q
    simp only [pinsert]
    split
    · rename_i hkk
      subst hkk
      by_cases h2 : k₂ = k <;> simp [plookup, h2]
    · rename_i hkk
      by_cases h2 : k₂ = k'
      · have hne : k₂ ≠ k := by
          rw [h2]; exact fun hc => hkk hc.symm
        have hk'k : k' ≠ k := fun hc => hkk hc.symm
        simp [plookup, h2, hne, hk'k]
      · simp [plookup, h2, ih]

theorem plookup_pextend_of_none {β : Type} (o : List (String × β))
    (k : String) (h : plookup k o = Option.none) :
    ∀ m : List (String × β), plookup k (pextend m o) = plookup k m := by
  induction o with
  | nil => intro m; rfl
  | cons q rest ih =>
    intro m
    obtain ⟨k₁, v₁⟩ := q
    by_cases hk : k = k₁
    · simp [plookup, hk] at h
    · simp only [plookup, if_neg hk] at h
      rw [pextend, List.foldl_cons]
      have := ih h (pinsert m k₁ v₁)
      rw [pextend] at this
      rw [this, plookup_pinsert, if_neg hk]

theorem plookup_pextend_of_some {β : Type} (o : List (String × β))
    (k : String) (v : β) (hnd : (o.map Prod.fst).Nodup)
    (h : plookup k o = some v) :
    ∀ m : List (String × β), plookup k (pextend m o) = some v := by
  induction o with
  | nil => simp [plookup] at h
  | cons q rest ih =>
    intro m
    obtain ⟨k₁, v₁⟩ := q
    simp only [List.map_cons, List.nodup_cons] at hnd
    obtain ⟨hk₁, hrest⟩ := hnd
    by_cases hk : k = k₁
    · subst hk
      simp only [plookup, if_true, eq_self_iff_true, Option.some.injEq] at h
      subst h
      have hnone : plookup k rest = Option.none := by
        cases hv : plookup k rest with
        | none => rfl
        | some w => exact absurd (mem_keys_of_plookup hv) hk₁
      rw [pextend, List.foldl_cons]
      have := plookup_pextend_of_none rest k hnone (pinsert m k v₁)
      rw [pextend] at this
      rw [this, plookup_pinsert, if_pos rfl]
    · simp only [plookup, if_neg hk] at h
      rw [pextend, List.foldl_cons]
      have := ih hrest h (pinsert m k₁ v₁)
      rw [pextend] at this
      rw [this]

/-- C4: `Output::merge` is not commutative when the two `Output`s bind the
same purpose tag to different paths: a tag bound by both sides resolves to
`other`'s path in `merge(self, other)` — so `merge(a,b)` keeps `b`'s path
and `merge(b,a)` keeps `a`'s path — no error is raised (the merge is a
total function), and every tag bound by only one side is carried through
unchanged, in either direction. -/
theorem output_merge_purpose_last_write_wins (a b : Output) (tag : String)
    (pa pb : List String)
    (hna : (a.purpose.map Prod.fst).Nodup)
    (hnb : (b.purpose.map Prod.fst).Nodup)
    (ha : plookup tag a.purpose = some pa)
    (hb : plookup tag b.purpose = some pb) :
    plookup tag (Output.merge a b).purpose = some pb ∧
      plookup tag (Output.merge b a).purpose = some pa ∧
      (∀ t p, plookup t a.purpose = some p →
        plookup t b.purpose = Option.none →
        plookup t (Output.merge a b).purpose = some p ∧
        plookup t (Output.merge b a).purpose = some p) ∧
      (∀ t p, plookup t b.purpose = some p →
        plookup t a.purpose = Option.none →
        plookup t (Output.merge a b).purpose = some p ∧
        plookup t (Output.merge b a).purpose = some p) := by
  refine ⟨plookup_pextend_of_some b.purpose tag pb hnb hb a.purpose,
    plookup_pextend_of_some a.purpose tag pa hna ha b.purpose, ?_, ?_⟩
  · intro t p hpa hnone
    exact ⟨(plookup_pextend_of_none b.purpose t hnone a.purpose).trans hpa,
      plookup_pextend_of_some a.purpose t p hna hpa b.purpose⟩
  · intro t p hpb hnone
    exact ⟨plookup_pextend_of_some b.purpose t p hnb hpb a.purpose,
      (plookup_pextend_of_none a.purpose t hnone b.purpose).trans hpb⟩

/-- Witness for C4 at two concrete `Output`s binding the tag `ts` to
different paths. -/
theorem output_merge_purpose_last_write_wins_witness :
    plookup "ts"
        (Output.merge ⟨Kind.anyTop, [("ts", ["pa"])]⟩
          ⟨Kind.anyTop, [("ts", ["pb"])]⟩).purpose = some ["pb"] ∧
      plookup "ts"
        (Output.merge ⟨Kind.anyTop, [("ts", ["pb"])]⟩
          ⟨Kind.anyTop, [("ts", ["pa"])]⟩).purpose = some ["pa"] ∧
      (∀ t p, plookup t ([("ts", ["pa"])] : List (String × List String)) = some p →
        plookup t ([("ts", ["pb"])] : List (String × List String)) = Option.none →
        plookup t (Output.merge ⟨Kind.anyTop, [("ts", ["pa"])]⟩
          ⟨Kind.anyTop, [("ts", ["pb"])]⟩).purpose = some p ∧
        plookup t (Output.merge ⟨Kind.anyTop, [("ts", ["pb"])]⟩
          ⟨Kind.anyTop, [("ts", ["pa"])]⟩).purpose = some p) ∧
      (∀ t p, plookup t ([("ts", ["pb"])] : List (String × List String)) = some p →
        plookup t ([("ts", ["pa"])] : List (String × List String)) = Option.none →
        plookup t (Output.merge ⟨Kind.anyTop, [("ts", ["pa"])]⟩
          ⟨Kind.anyTop, [("ts", ["pb"])]⟩).purpose = some p ∧
        plookup t (Output.merge ⟨Kind.anyTop, [("ts", ["pb"])]⟩
          ⟨Kind.anyTop, [("ts", ["pa"])]⟩).purpose = some p) :=
  output_merge_purpose_last_write_wins ⟨Kind.anyTop, [("ts", ["pa"])]⟩
    ⟨Kind.anyTop, [("ts", ["pb"])]⟩ "ts" ["pa"] ["pb"]
    (by simp) (by simp) (by simp [plookup]) (by simp [plookup])

/-! ## Claims about Kind::merge -/

theorem scalarSet_union_comm (s t : ScalarSet) : s.union t = t.union s := by
  cases s; cases t; simp [ScalarSet.union, Bool.or_comm]

theorem kind_merge_comm_aux (n : Nat) :
    (∀ a b : Kind, sizeOf a + sizeOf b ≤ n →
      Kind.merge a b = Kind.merge b a) ∧
    (∀ f1 f2 : List (String × Kind), sizeOf f1 + sizeOf f2 ≤ n →
      Kind.mergeFields f1 f2 = Kind.mergeFields f2 f1) := by
  induction n using Nat.strong_induction_on with
  | _ n ih =>
    constructor
    · rintro ⟨a1, s1, r1, o1⟩ ⟨a2, s2, r2, o2⟩ hn
      rw [Kind.merge, Kind.merge, Bool.or_comm a2 a1]
      by_cases h : (a1 || a2) = true
      · rw [if_pos h, if_pos h]
      · rw [if_neg h, if_neg h]
        have harr : Kind.mergeArr r1 r2 = Kind.mergeArr r2 r1 := by
          cases r1 with
          | none => cases r2 <;> simp only [Kind.mergeArr.eq_def]
          | some x =>
            cases r2 with
            | none => simp only [Kind.mergeArr.eq_def]
            | some y =>
              simp only [Kind.mergeArr.eq_def]
              have hxy : sizeOf x + sizeOf y < n := by
                simp at hn; omega
              rw [(ih _ hxy).1 x y le_rfl]
        have hobj : Kind.mergeObj o1 o2 = Kind.mergeObj o2 o1 := by
          cases o1 with
          | none => cases o2 <;> simp only [Kind.mergeObj.eq_def]
          | some p1 =>
            cases o2 with
            | none => simp only [Kind.mergeObj.eq_def]
            | some p2 =>
              obtain ⟨f1, b1⟩ := p1
              obtain ⟨f2, b2⟩ := p2
              simp only [Kind.mergeObj.eq_def]
              have hf : sizeOf f1 + sizeOf f2 < n := by
                simp at hn; omega
              rw [(ih _ hf).2 f1 f2 le_rfl, Bool.or_comm b1 b2]
        rw [harr, hobj, scalarSet_union_comm]
    · intro f1 f2 hn
      rcases f1 with _ | ⟨⟨k1, v1⟩, xs⟩
      · rcases f2 with _ | ⟨⟨k2, v2⟩, ys⟩ <;>
          simp only [Kind.mergeFields]
      · rcases f2 with _ | ⟨⟨k2, v2⟩, ys⟩
        · simp only [Kind.mergeFields]
        · simp only [Kind.mergeFields]
          rcases lt_trichotomy k1 k2 with h | h | h
          · rw [if_pos h, if_neg (lt_asymm h), if_pos h]
            have hsz : sizeOf xs + sizeOf ((k2, v2) :: ys) < n := by
              simp at hn ⊢; omega
            rw [(ih _ hsz).2 xs ((k2, v2) :: ys) le_rfl]
          · subst h
            rw [if_neg (lt_irrefl k1), if_neg (lt_irrefl k1),
              if_neg (lt_irrefl k1), if_neg (lt_irrefl k1)]
            have hv : sizeOf v1 + sizeOf v2 < n := by
              simp at hn; omega
            have hxy : sizeOf xs + sizeOf ys < n := by
              simp at hn; omega
            rw [(ih _ hv).1 v1 v2 le_rfl, (ih _ hxy).2 xs ys le_rfl]
          · rw [if_neg (lt_asymm h), if_pos h, if_pos h]
            have hsz : sizeOf ((k1, v1) :: xs) + sizeOf ys < n := by
              simp at hn ⊢; omega
            rw [(ih _ hsz).2 ((k1, v1) :: xs) ys le_rfl]

theorem kind_merge_comm (a b : Kind) : Kind.merge a b = Kind.merge b a :=
  (kind_merge_comm_aux (sizeOf a + sizeOf b)).1 a b le_rfl

theorem plookup_mergeFields_aux (n : Nat) :
    ∀ f1 f2 : List (String × Kind), f1.length + f2.length ≤ n →
      KeySorted f1 → KeySorted f2 → ∀ k,
        plookup k (Kind.mergeFields f1 f2) =
          match plookup k f1, plookup k f2 with
          | some v1, some v2 => some (Kind.merge v1 v2)
          | some v1, Option.none => some v1
          | Option.none, some v2 => some v2
          | Option.none, Option.none => Option.none := by
  induction n using Nat.strong_induction_on with
  | _ n ih =>
    intro f1 f2 hn hs1 hs2 k
    rcases f1 with _ | ⟨⟨k1, v1⟩, xs⟩
    · simp only [Kind.mergeFields]
      cases plookup k f2 <;> simp [plookup]
    · rcases f2 with _ | ⟨⟨k2, v2⟩, ys⟩
      · simp only [Kind.mergeFields]
        cases plookup k ((k1, v1) :: xs) <;> simp [plookup]
      · rw [KeySorted, List.pairwise_cons] at hs1 hs2
        obtain ⟨hlt1, hxs⟩ := hs1
        obtain ⟨hlt2, hys⟩ := hs2
        simp only [Kind.mergeFields]
        rcases lt_trichotomy k1 k2 with h | h | h
        · rw [if_pos h]
          by_cases hk : k = k1
          · subst hk
            have h2 : plookup k ((k2, v2) :: ys) = Option.none := by
              apply plookup_eq_none_of
              intro p hp
              simp only [List.mem_cons] at hp
              rcases hp with hp | hp
              · rw [hp]; exact ne_of_lt h
              · exact ne_of_lt (lt_trans h (hlt2 p hp))
            rw [h2]
            simp [plookup]
          · have hsz : xs.length + ((k2, v2) :: ys).length < n := by
              simp at hn ⊢; omega
            have hrec := ih _ hsz xs ((k2, v2) :: ys) le_rfl hxs
              (by rw [KeySorted, List.pairwise_cons]; exact ⟨hlt2, hys⟩) k
            have hplkm : plookup k
                ((k1, v1) :: Kind.mergeFields xs ((k2, v2) :: ys)) =
                plookup k (Kind.mergeFields xs ((k2, v2) :: ys)) := by
              simp [plookup, hk]
            have hplk : plookup k ((k1, v1) :: xs) = plookup k xs := by
              simp [plookup, hk]
            rw [hplkm, hrec, hplk]
        · subst h
          rw [if_neg (lt_irrefl k1), if_neg (lt_irrefl k1)]
          by_cases hk : k = k1
          · subst hk
            simp [plookup]
          · have hsz : xs.length + ys.length < n := by
              simp at hn ⊢; omega
            have hrec := ih _ hsz xs ys le_rfl hxs hys k
            have hplkm : plookup k
                ((k1, Kind.merge v1 v2) :: Kind.mergeFields xs ys) =
                plookup k (Kind.mergeFields xs ys) := by
              simp [plookup, hk]
            have hplk1 : plookup k ((k1, v1) :: xs) = plookup k xs := by
              simp [plookup, hk]
            have hplk2 : plookup k ((k1, v2) :: ys) = plookup k ys := by
              simp [plookup, hk]
            rw [hplkm, hrec, hplk1, hplk2]
        · rw [if_neg (lt_asymm h), if_pos h]
          by_cases hk : k = k2
          · subst hk
            have h1 : plookup k ((k1, v1) :: xs) = Option.none := by
              apply plookup_eq_none_of
              intro p hp
              simp only [List.mem_cons] at hp
              rcases hp with hp | hp
              · rw [hp]; exact ne_of_lt h
              · exact ne_of_lt (lt_trans h (hlt1 p hp))
            rw [h1]
            simp [plookup]
          · have hsz : ((k1, v1) :: xs).length + ys.length < n := by
              simp at hn ⊢; omega
            have hrec := ih _ hsz ((k1, v1) :: xs) ys le_rfl
              (by rw [KeySorted, List.pairwise_cons]; exact ⟨hlt1, hxs⟩) hys k
            have hplkm : plookup k
                ((k2, v2) :: Kind.mergeFields ((k1, v1) :: xs) ys) =
                plookup k (Kind.mergeFields ((k1, v1) :: xs) ys) := by
              simp [plookup, hk]
            have hplk2 : plookup k ((k2, v2) :: ys) = plookup k ys := by
              simp [plookup, hk]
            rw [hplkm, hrec, hplk2]

/-- C5: for any two `Kind` values with no field-type collisions,
`Kind::merge` is commutative — `merge(a,b)` is structurally equal to
`merge(b,a)` — and in particular arrays merge element-wise, the object
open flag of a merge is the logical or of the two sides, and object field
maps merge key-by-key: a shared key is recursively merged and a key unique
to one side is carried through unchanged. -/
theorem kind_merge_commutative (a b x y : Kind)
    (f1 f2 : List (String × Kind)) (o1 o2 : Bool)
    (hs1 : KeySorted f1) (hs2 : KeySorted f2) (hnc : NoCollisions a b) :
    Kind.merge a b = Kind.merge b a ∧
      Kind.mergeArr (some x) (some y) = some (Kind.merge x y) ∧
      Kind.mergeObj (some (f1, o1)) (some (f2, o2)) =
        some (Kind.mergeFields f1 f2, o1 || o2) ∧
      (∀ k, plookup k (Kind.mergeFields f1 f2) =
        match plookup k f1, plookup k f2 with
        | some v1, some v2 => some (Kind.merge v1 v2)
        | some v1, Option.none => some v1
        | Option.none, some v2 => some v2
        | Option.none, Option.none => Option.none) := by
  refine ⟨kind_merge_comm a b, by simp only [Kind.mergeArr.eq_def],
    by simp only [Kind.mergeObj.eq_def], ?_⟩
  intro k
  exact plookup_mergeFields_aux (f1.length + f2.length) f1 f2 le_rfl hs1 hs2 k

/-- Witness for C5 at two concrete object kinds declaring disjoint
fields. -/
theorem kind_merge_commutative_witness :
    Kind.merge
        (Kind.mk false ScalarSet.empty Option.none
          (some ([("a", Kind.anyTop)], false)))
        (Kind.mk false ScalarSet.empty Option.none
          (some ([("b", Kind.anyTop)], true))) =
      Kind.merge
        (Kind.mk false ScalarSet.empty Option.none
          (some ([("b", Kind.anyTop)], true)))
        (Kind.mk false ScalarSet.empty Option.none
          (some ([("a", Kind.anyTop)], false))) ∧
      Kind.mergeArr (some Kind.anyTop) (some Kind.anyTop) =
        some (Kind.merge Kind.anyTop Kind.anyTop) ∧
      Kind.mergeObj (some ([("a", Kind.anyTop)], false))
          (some ([("b", Kind.anyTop)], true)) =
        some (Kind.mergeFields [("a", Kind.anyTop)] [("b", Kind.anyTop)],
          false || true) ∧
      (∀ k, plookup k
          (Kind.mergeFields [("a", Kind.anyTop)] [("b", Kind.anyTop)]) =
        match plookup k [("a", Kind.anyTop)], plookup k [("b", Kind.anyTop)] with
        | some v1, some v2 => some (Kind.merge v1 v2)
        | some v1, Option.none => some v1
        | Option.none, some v2 => some v2
        | Option.none, Option.none => Option.none) :=
  kind_merge_commutative _ _ _ _ _ _ _ _
    (by simp [KeySorted]) (by simp [KeySorted])
    (by
      intro k v1 v2 h1 h2
      by_cases hka : k = "a"
      · subst hka
        simp [plookup] at h2
      · simp [plookup, hka] at h1)

end Vector
